import Mathlib

/-!
Verification of the helper scripts in `slaclab/aes-stream-drivers`:
the compile-database argument filter (`scripts/filter-clangdb.py`),
the clang-tidy batch runner (`scripts/run-clang-tidy.py`), and the two
release-asset uploaders (`scripts/uploadTag.py` and the legacy
`uploadTag.py`).  Strings are embedded as `List Char`; Python operations
(`str.split`, `str.startswith`, list comprehensions, exceptions) are
modelled explicitly, with `Option` for runs that raise.
-/

/-- Convert a Lean string literal to the `List Char` representation used
throughout the development. -/
def chars (s : String) : List Char := s.data

/-- Python whitespace, as used by `str.split()` with no separator
(space, tab, newline, carriage return, vertical tab, form feed). -/
def isPySpace (c : Char) : Bool :=
  c = ' ' || c = '\t' || c = '\n' || c = '\r' || c = '\x0b' || c = '\x0c'

/-- `x.split()[0]`: the first whitespace-delimited token of `x`, or `none`
when `x.split()` is empty (Python raises `IndexError` there). -/
def firstTok (x : List Char) : Option (List Char) :=
  match x.dropWhile isPySpace with
  | [] => none
  | c :: cs => some ((c :: cs).takeWhile (fun d => !isPySpace d))

/-- `x.split('=')[0]`: the substring of `x` before the first `=`
(`x` itself when it has no `=`). -/
def eqName (x : List Char) : List Char := x.takeWhile (fun c => c ≠ '=')

/-- The built-in default strip list `to_strip` of `filter-clangdb.py`. -/
def to_strip : List (List Char) := [chars "-mrecord-mcount"]

/-- `is_special_arg` from `filter-clangdb.py`: arguments starting with
`-I`, `-D` or `-U` are always preserved. -/
def is_special_arg (x : List Char) : Bool :=
  (chars "-I").isPrefixOf x || (chars "-D").isPrefixOf x || (chars "-U").isPrefixOf x

/-- `is_stripped` from `filter-clangdb.py`: true when the first
whitespace-delimited token of `x` is in the user strip list or in
`to_strip`; `none` models the `IndexError` raised by `x.split()[0]`
when `x` has no tokens. -/
def is_stripped (strip : List (List Char)) (x : List Char) : Option Bool :=
  match firstTok x with
  | none => none
  | some ag => some (decide (ag ∈ strip ∨ ag ∈ to_strip))

/-- The per-argument condition of the main filter loop of
`filter-clangdb.py`:
`(not x.startswith('-') or x.split('=')[0] in supportedargs or is_special_arg(x)) and not is_stripped(x)`.
Python's `and` short-circuits, so `is_stripped` (which can raise) is only
evaluated when the left disjunction holds. -/
def keepArg (supported strip : List (List Char)) (x : List Char) : Option Bool :=
  if !((chars "-").isPrefixOf x) || decide (eqName x ∈ supported) || is_special_arg x then
    match is_stripped strip x with
    | none => none
    | some b => some (!b)
  else
    some false

/-- The list comprehension of the main filter loop, applied to one
record's argument list; `none` when evaluating the condition on some
argument raises. -/
def filterArgs (supported strip : List (List Char)) : List (List Char) → Option (List (List Char))
  | [] => some []
  | x :: xs =>
    match keepArg supported strip x, filterArgs supported strip xs with
    | some k, some rest => some (if k then x :: rest else rest)
    | _, _ => none

/-- A compile-database record: an `arguments` list of strings plus the
record's remaining keys (`file` and any others), abstracted as `rest`
since the filter loop touches only `command['arguments']`. -/
structure CRecord (α : Type) where
  arguments : List (List Char)
  rest : α
deriving DecidableEq, Repr

/-- One iteration of the main loop of `filter-clangdb.py`:
`command['arguments'] = [x for x in command['arguments'] if ...]`,
leaving every other key of the record untouched. -/
def filterRecord (supported strip : List (List Char)) (r : CRecord α) : Option (CRecord α) :=
  match filterArgs supported strip r.arguments with
  | none => none
  | some as => some { arguments := as, rest := r.rest }

/-- The whole filter run over the compile database: records processed in
order; `none` when any record raises (nothing is printed or written back
in that case, since output happens after the loop). -/
def filterDB (supported strip : List (List Char)) : List (CRecord α) → Option (List (CRecord α))
  | [] => some []
  | r :: rs =>
    match filterRecord supported strip r, filterDB supported strip rs with
    | some r2, some rest => some (r2 :: rest)
    | _, _ => none

/-- The spec's per-argument retention predicate, written from the spec's
words: the argument does not start with `-`, or its substring before the
first `=` is in the supported-flag set, or it starts with `-I`/`-D`/`-U`;
and its first whitespace-delimited token (when it has one) is in neither
the strip set nor the built-in default strip list. -/
def specKeep (supported strip : List (List Char)) (x : List Char) : Bool :=
  (!((chars "-").isPrefixOf x) || decide (eqName x ∈ supported) || is_special_arg x)
  && (match firstTok x with
      | some ag => !(decide (ag ∈ strip ∨ ag ∈ to_strip))
      | none => true)

example : firstTok (chars "-I /usr") = some (chars "-I") := by decide
example : firstTok (chars "   ") = none := by decide
example : eqName (chars "-mfoo=bar") = chars "-mfoo" := by decide
example : filterArgs [chars "-c"] [] [chars "cc", chars "-O2", chars "a.c"]
    = some [chars "cc", chars "a.c"] := by decide

/-- When the loop condition evaluates without raising, its value agrees
with the spec's retention predicate. -/
theorem keepArg_eq_specKeep {s t : List (List Char)} {x : List Char} {k : Bool}
    (h : keepArg s t x = some k) : k = specKeep s t x := by
  unfold keepArg at h
  unfold specKeep
  split at h
  case isTrue hc =>
    rw [hc, Bool.true_and]
    unfold is_stripped at h
    cases hft : firstTok x with
    | none => rw [hft] at h; exact absurd h (by simp)
    | some ag =>
      rw [hft] at h
      simp only [Option.some.injEq] at h
      exact h.symm
  case isFalse hc =>
    simp only [Option.some.injEq] at h
    rw [Bool.not_eq_true] at hc
    rw [hc, Bool.false_and]
    exact h.symm

/-- A successful comprehension run computes exactly the spec's filter. -/
theorem filterArgs_eq_filter {s t : List (List Char)} :
    ∀ {l m : List (List Char)}, filterArgs s t l = some m → m = l.filter (specKeep s t) := by
  intro l
  induction l with
  | nil => intro m h; simp only [filterArgs, Option.some.injEq] at h; simp [h.symm]
  | cons x xs ih =>
    intro m h
    unfold filterArgs at h
    cases hk : keepArg s t x with
    | none => rw [hk] at h; exact absurd h (by simp)
    | some k =>
      cases hr : filterArgs s t xs with
      | none => rw [hk, hr] at h; exact absurd h (by simp)
      | some rest =>
        rw [hk, hr] at h
        simp only [Option.some.injEq] at h
        have hks := keepArg_eq_specKeep hk
        rw [List.filter_cons, ← hks, ← ih hr]
        cases k with
        | true => simpa using h.symm
        | false => simpa using h.symm

/-- Every argument retained by a successful run satisfied the loop
condition (which evaluated without raising). -/
theorem keepArg_of_mem {s t : List (List Char)} :
    ∀ {l m : List (List Char)}, filterArgs s t l = some m →
      ∀ {x : List Char}, x ∈ m → keepArg s t x = some true := by
  intro l
  induction l with
  | nil =>
    intro m h x hx
    simp only [filterArgs, Option.some.injEq] at h
    rw [← h] at hx
    exact absurd hx (by simp)
  | cons y ys ih =>
    intro m h x hx
    unfold filterArgs at h
    cases hk : keepArg s t y with
    | none => rw [hk] at h; exact absurd h (by simp)
    | some k =>
      cases hr : filterArgs s t ys with
      | none => rw [hk, hr] at h; exact absurd h (by simp)
      | some rest =>
        rw [hk, hr] at h
        simp only [Option.some.injEq] at h
        cases k with
        | true =>
          rw [← h] at hx
          rcases List.mem_cons.mp (by simpa using hx) with hxy | hxr
          · rw [hxy]; exact hk
          · exact ih hr hxr
        | false =>
          rw [← h] at hx
          exact ih hr (by simpa using hx)

/-- A list every element of which the loop condition keeps is mapped to
itself by the comprehension. -/
theorem filterArgs_fixed {s t : List (List Char)} :
    ∀ {m : List (List Char)}, (∀ x ∈ m, keepArg s t x = some true) →
      filterArgs s t m = some m := by
  intro m
  induction m with
  | nil => intro _; rfl
  | cons x xs ih =>
    intro hall
    unfold filterArgs
    rw [hall x (List.mem_cons_self x xs), ih (fun y hy => hall y (List.mem_cons_of_mem x hy))]
    simp

/-- If the loop condition raises on some element of the list, the whole
comprehension raises. -/
theorem filterArgs_none_of_mem {s t : List (List Char)} :
    ∀ {l : List (List Char)} {x : List Char}, x ∈ l → keepArg s t x = none →
      filterArgs s t l = none := by
  intro l
  induction l with
  | nil => intro x hx _; exact absurd hx (by simp)
  | cons y ys ih =>
    intro x hx hnone
    unfold filterArgs
    rcases List.mem_cons.mp hx with hxy | hxr
    · rw [← hxy, hnone]
    · rw [ih hxr hnone]
      cases keepArg s t y <;> rfl


/-- A successful filter run relates input and output records pointwise:
the arguments filtered by the spec predicate, all other keys unchanged. -/
theorem filterDB_forall₂ {α : Type} {s t : List (List Char)} :
    ∀ {db out : List (CRecord α)}, filterDB s t db = some out →
      List.Forall₂
        (fun r r2 => r2.arguments = r.arguments.filter (specKeep s t) ∧ r2.rest = r.rest)
        db out := by
  intro db
  induction db with
  | nil =>
    intro out h
    simp only [filterDB, Option.some.injEq] at h
    rw [← h]
    exact List.Forall₂.nil
  | cons r rs ih =>
    intro out h
    unfold filterDB at h
    cases hr : filterRecord s t r with
    | none => rw [hr] at h; exact absurd h (by simp)
    | some r2 =>
      cases hrest : filterDB s t rs with
      | none => rw [hr, hrest] at h; exact absurd h (by simp)
      | some rest =>
        rw [hr, hrest] at h
        simp only [Option.some.injEq] at h
        rw [← h]
        refine List.Forall₂.cons ?_ (ih hrest)
        unfold filterRecord at hr
        cases ha : filterArgs s t r.arguments with
        | none => rw [ha] at hr; exact absurd hr (by simp)
        | some as =>
          rw [ha] at hr
          simp only [Option.some.injEq] at hr
          rw [← hr]
          exact ⟨filterArgs_eq_filter ha, rfl⟩

/-- A record produced by a successful filtering step is a fixed point of
the filtering step. -/
theorem filterRecord_idem {α : Type} {s t : List (List Char)} {r r2 : CRecord α}
    (h : filterRecord s t r = some r2) : filterRecord s t r2 = some r2 := by
  unfold filterRecord at h ⊢
  cases ha : filterArgs s t r.arguments with
  | none => rw [ha] at h; exact absurd h (by simp)
  | some as =>
    rw [ha] at h
    simp only [Option.some.injEq] at h
    rw [← h]
    rw [filterArgs_fixed (fun x hx => keepArg_of_mem ha hx)]

/-- If the filtering step raises on some record of the database, the
whole run raises (and nothing is printed or written back). -/
theorem filterDB_none_of_mem {α : Type} {s t : List (List Char)} :
    ∀ {db : List (CRecord α)} {r : CRecord α}, r ∈ db → filterRecord s t r = none →
      filterDB s t db = none := by
  intro db
  induction db with
  | nil => intro r hr _; exact absurd hr (by simp)
  | cons q qs ih =>
    intro r hr hnone
    unfold filterDB
    rcases List.mem_cons.mp hr with hq | hqs
    · rw [← hq, hnone]
    · rw [ih hqs hnone]
      cases filterRecord s t q <;> rfl

/-- A database produced by a successful filter run is a fixed point of
the filter run. -/
theorem filterDB_idem {α : Type} {s t : List (List Char)} :
    ∀ {db out : List (CRecord α)}, filterDB s t db = some out →
      filterDB s t out = some out := by
  intro db
  induction db with
  | nil =>
    intro out h
    simp only [filterDB, Option.some.injEq] at h
    rw [← h]
    rfl
  | cons r rs ih =>
    intro out h
    unfold filterDB at h
    cases hr : filterRecord s t r with
    | none => rw [hr] at h; exact absurd h (by simp)
    | some r2 =>
      cases hrest : filterDB s t rs with
      | none => rw [hr, hrest] at h; exact absurd h (by simp)
      | some rest =>
        rw [hr, hrest] at h
        simp only [Option.some.injEq] at h
        rw [← h]
        unfold filterDB
        rw [filterRecord_idem hr, ih hrest]

/-- An argument starting with `-I`, `-D` or `-U` begins with a dash and
therefore has a first whitespace-delimited token. -/
theorem firstTok_of_special {x : List Char} (h : is_special_arg x = true) :
    ∃ ag, firstTok x = some ag := by
  have hx : ∃ u, x = '-' :: u := by
    unfold is_special_arg at h
    simp only [Bool.or_eq_true, List.isPrefixOf_iff_prefix] at h
    rcases h with (h1 | h1) | h1
    · obtain ⟨u, hu⟩ := h1
      exact ⟨'I' :: u, hu.symm⟩
    · obtain ⟨u, hu⟩ := h1
      exact ⟨'D' :: u, hu.symm⟩
    · obtain ⟨u, hu⟩ := h1
      exact ⟨'U' :: u, hu.symm⟩
  rcases hx with ⟨u, rfl⟩
  refine ⟨('-' :: u).takeWhile (fun d => !isPySpace d), ?_⟩
  unfold firstTok
  rw [List.dropWhile_cons, if_neg (by decide)]

/-- C1: for every compile database, supported-flag set and strip set, a
filter run that produces a database yields, record by record, exactly the
order-preserving sublist of the input arguments retained by the spec's
predicate: (does not start with `-`, or substring before the first `=` is
in the supported set, or starts with `-I`/`-D`/`-U`) and the first
whitespace-delimited token is in neither the strip set nor the built-in
default strip list. -/
theorem fc_arguments_filtered_spec {α : Type} {s t : List (List Char)}
    {db out : List (CRecord α)} (h : filterDB s t db = some out) :
    List.Forall₂ (fun r r2 => r2.arguments = r.arguments.filter (specKeep s t)) db out :=
  (filterDB_forall₂ h).imp (fun _ _ hab => hab.1)

/-- Witness for C1 at a concrete database. -/
theorem fc_arguments_filtered_spec_witness :
    List.Forall₂
      (fun (r r2 : CRecord Unit) => r2.arguments = r.arguments.filter (specKeep [chars "-c"] []))
      [{arguments := [chars "cc", chars "-O2", chars "a.c"], rest := ()}]
      [{arguments := [chars "cc", chars "a.c"], rest := ()}] :=
  @fc_arguments_filtered_spec Unit [chars "-c"] []
    [{arguments := [chars "cc", chars "-O2", chars "a.c"], rest := ()}]
    [{arguments := [chars "cc", chars "a.c"], rest := ()}] (by decide)

/-- C2: filtering is idempotent: re-filtering the output of a successful
filter run with the same supported and strip sets returns that output
unchanged. -/
theorem fc_filter_idempotent {α : Type} {s t : List (List Char)}
    {db out : List (CRecord α)} (h : filterDB s t db = some out) :
    filterDB s t out = some out :=
  filterDB_idem h

/-- Witness for C2 at a concrete database. -/
theorem fc_filter_idempotent_witness :
    filterDB [] [] [({arguments := [chars "gcc", chars "b.c"], rest := ()} : CRecord Unit)]
      = some [{arguments := [chars "gcc", chars "b.c"], rest := ()}] :=
  @fc_filter_idempotent Unit [] []
    [{arguments := [chars "gcc", chars "-O3", chars "b.c"], rest := ()}]
    [{arguments := [chars "gcc", chars "b.c"], rest := ()}] (by decide)

/-- Counterexample to C3 as stated: the argument `-mfoo=bar` has flag
name `-mfoo` (substring before the `=`) in the strip set, yet survives
the filter, because `is_stripped` matches the whole first
whitespace-delimited token `-mfoo=bar`, not the flag name. -/
theorem fc_strip_eqname_counterexample :
    eqName (chars "-mfoo=bar") ∈ [chars "-mfoo"] ∧
    filterDB [chars "-mfoo"] [chars "-mfoo"]
        [({arguments := [chars "-mfoo=bar"], rest := ()} : CRecord Unit)]
      = some [{arguments := [chars "-mfoo=bar"], rest := ()}] := by
  constructor
  · decide
  · decide

/-- C3 (amended): an argument whose first whitespace-delimited token is
in the strip set (or in the built-in default strip list) is absent from
the corresponding output record, regardless of supported-flag
membership. -/
theorem fc_strip_token_absent {α : Type} {s t : List (List Char)}
    {db out : List (CRecord α)} (h : filterDB s t db = some out) :
    List.Forall₂
      (fun r r2 => ∀ x ∈ r.arguments, ∀ ag, firstTok x = some ag →
        ag ∈ t ∨ ag ∈ to_strip → x ∉ r2.arguments)
      db out := by
  refine (filterDB_forall₂ h).imp ?_
  intro r r2 hab x _ ag hag hmem hcontra
  rw [hab.1] at hcontra
  have hsk := (List.mem_filter.mp hcontra).2
  unfold specKeep at hsk
  rw [hag] at hsk
  simp only [Bool.and_eq_true, Bool.not_eq_true', decide_eq_false_iff_not] at hsk
  exact hsk.2 hmem

/-- Witness for the amended C3 at a concrete database. -/
theorem fc_strip_token_absent_witness :
    List.Forall₂
      (fun (r r2 : CRecord Unit) => ∀ x ∈ r.arguments, ∀ ag, firstTok x = some ag →
        ag ∈ [chars "-O2"] ∨ ag ∈ to_strip → x ∉ r2.arguments)
      [{arguments := [chars "cc", chars "-O2"], rest := ()}]
      [{arguments := [chars "cc"], rest := ()}] :=
  @fc_strip_token_absent Unit [chars "-O2"] [chars "-O2"]
    [{arguments := [chars "cc", chars "-O2"], rest := ()}]
    [{arguments := [chars "cc"], rest := ()}] (by decide)

/-- Counterexample to C4 as stated: the special argument `-I/x` starts
with `-I` and its flag name is not in the (empty) supported set, yet it
is removed from the output because it is in the strip set — special
arguments are still subject to stripping. -/
theorem fc_special_counterexample :
    is_special_arg (chars "-I/x") = true ∧
    eqName (chars "-I/x") ∉ ([] : List (List Char)) ∧
    filterDB [] [chars "-I/x"]
        [({arguments := [chars "-I/x"], rest := ()} : CRecord Unit)]
      = some [{arguments := [], rest := ()}] := by
  refine ⟨by decide, by decide, by decide⟩

/-- C4 (amended): an argument starting with `-I`, `-D` or `-U` is
retained in the corresponding output record even when its flag name is
not in the supported-flag set, provided its first whitespace-delimited
token is in neither the strip set nor the built-in default strip
list. -/
theorem fc_special_retained {α : Type} {s t : List (List Char)}
    {db out : List (CRecord α)} (h : filterDB s t db = some out) :
    List.Forall₂
      (fun r r2 => ∀ x ∈ r.arguments, is_special_arg x = true →
        (∀ ag, firstTok x = some ag → ag ∉ t ∧ ag ∉ to_strip) → x ∈ r2.arguments)
      db out := by
  refine (filterDB_forall₂ h).imp ?_
  intro r r2 hab x hxr hsp hnost
  rw [hab.1]
  refine List.mem_filter.mpr ⟨hxr, ?_⟩
  unfold specKeep
  rw [hsp]
  obtain ⟨ag, hag⟩ := firstTok_of_special hsp
  rw [hag]
  obtain ⟨h1, h2⟩ := hnost ag hag
  simp [h1, h2]

/-- Witness for the amended C4 at a concrete database. -/
theorem fc_special_retained_witness :
    List.Forall₂
      (fun (r r2 : CRecord Unit) => ∀ x ∈ r.arguments, is_special_arg x = true →
        (∀ ag, firstTok x = some ag → ag ∉ ([] : List (List Char)) ∧ ag ∉ to_strip) →
        x ∈ r2.arguments)
      [{arguments := [chars "-I/usr/include", chars "-foo"], rest := ()}]
      [{arguments := [chars "-I/usr/include"], rest := ()}] :=
  @fc_special_retained Unit [] []
    [{arguments := [chars "-I/usr/include", chars "-foo"], rest := ()}]
    [{arguments := [chars "-I/usr/include"], rest := ()}] (by decide)

/-- C5: the spec's worked example: the record with file `a.c` and
arguments `cc -mrecord-mcount -I/usr/include -Wfoo -c a.c`, supported
set `{-c, -Wfoo}` and no user strip additions filters to
`cc -I/usr/include -Wfoo -c a.c`. -/
theorem fc_example_record :
    filterDB [chars "-c", chars "-Wfoo"] []
        [({arguments := [chars "cc", chars "-mrecord-mcount", chars "-I/usr/include",
                         chars "-Wfoo", chars "-c", chars "a.c"],
           rest := chars "a.c"} : CRecord (List Char))]
      = some [{arguments := [chars "cc", chars "-I/usr/include", chars "-Wfoo",
                             chars "-c", chars "a.c"],
               rest := chars "a.c"}] := by
  decide

/-- C9: a successful filter run changes only the `arguments` entry of
each record: every other key keeps its input value, and the number and
order of records are unchanged (the output relates to the input
pointwise). -/
theorem fc_frame_only_arguments {α : Type} {s t : List (List Char)}
    {db out : List (CRecord α)} (h : filterDB s t db = some out) :
    out.length = db.length ∧ List.Forall₂ (fun r r2 => r2.rest = r.rest) db out :=
  ⟨((filterDB_forall₂ h).length_eq).symm,
   (filterDB_forall₂ h).imp (fun _ _ hab => hab.2)⟩

/-- Witness for C9 at a concrete database. -/
theorem fc_frame_only_arguments_witness :
    ([({arguments := [chars "cc", chars "f.c"], rest := chars "f.c"} : CRecord (List Char))] :
        List (CRecord (List Char))).length
      = [({arguments := [chars "cc", chars "-O2", chars "f.c"], rest := chars "f.c"} :
          CRecord (List Char))].length ∧
    List.Forall₂ (fun (r r2 : CRecord (List Char)) => r2.rest = r.rest)
      [{arguments := [chars "cc", chars "-O2", chars "f.c"], rest := chars "f.c"}]
      [{arguments := [chars "cc", chars "f.c"], rest := chars "f.c"}] :=
  @fc_frame_only_arguments (List Char) [] []
    [{arguments := [chars "cc", chars "-O2", chars "f.c"], rest := chars "f.c"}]
    [{arguments := [chars "cc", chars "f.c"], rest := chars "f.c"}] (by decide)

/-- C10: a database containing a record with an empty or whitespace-only
argument makes the filter run raise (`x.split()[0]` raises `IndexError`),
so no output database is produced. -/
theorem fc_whitespace_arg_raises {α : Type} {s t : List (List Char)}
    {db : List (CRecord α)} {r : CRecord α} {x : List Char}
    (hr : r ∈ db) (hx : x ∈ r.arguments) (hws : ∀ c ∈ x, isPySpace c = true) :
    filterDB s t db = none := by
  have hft : firstTok x = none := by
    unfold firstTok
    rw [List.dropWhile_eq_nil_iff.mpr hws]
  have hpre : (chars "-").isPrefixOf x = false := by
    cases x with
    | nil => rfl
    | cons c cs =>
      have hc := hws c (List.mem_cons_self c cs)
      have hne : ('-' == c) = false := by
        simp only [isPySpace, Bool.or_eq_true, decide_eq_true_eq] at hc
        rcases hc with ((((h1 | h1) | h1) | h1) | h1) | h1 <;> (rw [h1]; decide)
      show (('-' == c) && List.isPrefixOf [] cs) = false
      rw [hne, Bool.false_and]
  have hkeep : keepArg s t x = none := by
    unfold keepArg is_stripped
    rw [hft, hpre]
    simp
  refine filterDB_none_of_mem hr ?_
  unfold filterRecord
  rw [filterArgs_none_of_mem hx hkeep]

/-- Witness for C10 at a concrete database with a whitespace-only
argument. -/
theorem fc_whitespace_arg_raises_witness :
    filterDB [] [] [({arguments := [chars "cc", chars " "], rest := ()} : CRecord Unit)]
      = none :=
  @fc_whitespace_arg_raises Unit [] []
    [{arguments := [chars "cc", chars " "], rest := ()}]
    {arguments := [chars "cc", chars " "], rest := ()} (chars " ")
    (by decide) (by decide) (by decide)

/-- The state threaded through the main loop of `run-clang-tidy.py`:
progress lines printed so far, subprocess argument vectors invoked so
far, and the accumulated `fail` flag. -/
structure TidyState where
  printed : List (List Char)
  invoked : List (List (List Char))
  fail : Bool
deriving DecidableEq, Repr

/-- One loop iteration of `run-clang-tidy.py` on a record's `file`
value: print `Processing {file}...`, run `[CMD, '-p=.', file]` through
the subprocess oracle `run` (returning the exit code), and set `fail`
when the code is non-zero. -/
def tidyStep (cmd : List Char) (run : List (List Char) → Int)
    (st : TidyState) (file : List Char) : TidyState :=
  { printed := st.printed ++ [chars "Processing " ++ file ++ chars "..."]
    invoked := st.invoked ++ [[cmd, chars "-p=.", file]]
    fail := st.fail || decide (run [cmd, chars "-p=.", file] ≠ 0) }

/-- `main` of `run-clang-tidy.py`: iterate over the records' `file`
values in order (the loop reads nothing else from a record), then
`exit(1 if fail else 0)`.  Returns the final state and the process exit
status. -/
def runClangTidyMain (cmd : List Char) (run : List (List Char) → Int)
    (files : List (List Char)) : TidyState × Nat :=
  let st := files.foldl (tidyStep cmd run) ⟨[], [], false⟩
  (st, if st.fail then 1 else 0)

/-- Unrolling the runner's fold from an arbitrary starting state. -/
theorem tidy_foldl (cmd : List Char) (run : List (List Char) → Int) :
    ∀ (files : List (List Char)) (st : TidyState),
      (files.foldl (tidyStep cmd run) st).printed
          = st.printed ++ files.map (fun f => chars "Processing " ++ f ++ chars "...") ∧
      (files.foldl (tidyStep cmd run) st).invoked
          = st.invoked ++ files.map (fun f => [cmd, chars "-p=.", f]) ∧
      (files.foldl (tidyStep cmd run) st).fail
          = (st.fail || files.any (fun f => decide (run [cmd, chars "-p=.", f] ≠ 0))) := by
  intro files
  induction files with
  | nil => intro st; simp
  | cons f fs ih =>
    intro st
    simp only [List.foldl_cons, List.map_cons, List.any_cons]
    obtain ⟨h1, h2, h3⟩ := ih (tidyStep cmd run st f)
    refine ⟨?_, ?_, ?_⟩
    · rw [h1]; simp [tidyStep]
    · rw [h2]; simp [tidyStep]
    · rw [h3]; simp [tidyStep, Bool.or_assoc]

/-- C6: the batch runner invokes the analysis command once per record in
order, never aborts on a non-zero code, prints one progress line per
record, and exits 1 exactly when some invocation returned non-zero; in
particular, on a 3-record database where only invocation 2 fails, all 3
files are invoked, 3 progress lines are printed, and the exit status
is 1. -/
theorem rct_batch_runner_spec :
    (∀ (cmd : List Char) (run : List (List Char) → Int) (files : List (List Char)),
      (runClangTidyMain cmd run files).1.invoked
          = files.map (fun f => [cmd, chars "-p=.", f]) ∧
      (runClangTidyMain cmd run files).1.printed
          = files.map (fun f => chars "Processing " ++ f ++ chars "...") ∧
      (runClangTidyMain cmd run files).2
          = (if files.any (fun f => decide (run [cmd, chars "-p=.", f] ≠ 0)) then 1 else 0)) ∧
    ((runClangTidyMain (chars "clang-tidy")
        (fun argv => if argv = [chars "clang-tidy", chars "-p=.", chars "f2"] then 1 else 0)
        [chars "f1", chars "f2", chars "f3"]).1.invoked.length = 3 ∧
     (runClangTidyMain (chars "clang-tidy")
        (fun argv => if argv = [chars "clang-tidy", chars "-p=.", chars "f2"] then 1 else 0)
        [chars "f1", chars "f2", chars "f3"]).1.printed.length = 3 ∧
     (runClangTidyMain (chars "clang-tidy")
        (fun argv => if argv = [chars "clang-tidy", chars "-p=.", chars "f2"] then 1 else 0)
        [chars "f1", chars "f2", chars "f3"]).2 = 1) := by
  constructor
  · intro cmd run files
    obtain ⟨h1, h2, h3⟩ := tidy_foldl cmd run files ⟨[], [], false⟩
    unfold runClangTidyMain
    refine ⟨by rw [h2]; simp, by rw [h1]; simp, ?_⟩
    dsimp only
    rw [h3]
    simp
  · refine ⟨by decide, by decide, by decide⟩

/-- The three remote operations an uploader attempts, in program
order. -/
inductive UStep
  | getRepo
  | getRelease
  | uploadAsset
deriving DecidableEq, Repr

/-- Observable events of an uploader run: the login banner, the token
check failure, construction of the authenticated API client, the remote
calls, the success message, and the two terminating failure shapes
(`sys.exit` with a descriptive message vs. an uncaught exception). -/
inductive UEvent
  | printLogin
  | exitTokenMissing
  | mkClient
  | callGetRepo
  | callGetRelease
  | callUpload
  | printSuccess
  | exitCaught
  | exitUncaught
deriving DecidableEq, Repr

/-- `scripts/uploadTag.py`: print the banner; read `GH_REPO_TOKEN`
(`tok`); `sys.exit` (status 1) when it is absent, before constructing
the client or touching the network; otherwise construct the client and
run `get_repo`, `get_release`, `upload_asset` inside a single `try`.
The oracle `fl` says which remote operation raises; a raise is caught by
`except Exception` and reported through `sys.exit` (status 1); on
success the confirmation is printed and the process exits 0.  Returns
the event trace and the exit status. -/
def uploadTagScripts (tok : Option (List Char)) (fl : UStep → Bool) : List UEvent × Nat :=
  match tok with
  | none => ([UEvent.printLogin, UEvent.exitTokenMissing], 1)
  | some _ =>
    if fl UStep.getRepo then
      ([UEvent.printLogin, UEvent.mkClient, UEvent.callGetRepo, UEvent.exitCaught], 1)
    else if fl UStep.getRelease then
      ([UEvent.printLogin, UEvent.mkClient, UEvent.callGetRepo, UEvent.callGetRelease,
        UEvent.exitCaught], 1)
    else if fl UStep.uploadAsset then
      ([UEvent.printLogin, UEvent.mkClient, UEvent.callGetRepo, UEvent.callGetRelease,
        UEvent.callUpload, UEvent.exitCaught], 1)
    else
      ([UEvent.printLogin, UEvent.mkClient, UEvent.callGetRepo, UEvent.callGetRelease,
        UEvent.callUpload, UEvent.printSuccess], 0)

/-- Legacy `uploadTag.py` (repository root): print the banner; read
`GITHUB_TOKEN`; exit (status 1) when absent; construct the client; call
`get_repo` OUTSIDE any `try`, so its failure propagates uncaught (the
interpreter terminates with a traceback, status 1); inside the `try`,
call `get_release` (failure caught, `sys.exit` status 1).  The following
`remRel.upload_asset(...)` line references the undefined name `remRel`,
raising `NameError` before any upload call; `except Exception` catches
it too, so even a failure-free run of the remote steps ends in the
caught-failure exit (status 1) and never prints a success message. -/
def uploadTagLegacy (tok : Option (List Char)) (fl : UStep → Bool) : List UEvent × Nat :=
  match tok with
  | none => ([UEvent.printLogin, UEvent.exitTokenMissing], 1)
  | some _ =>
    if fl UStep.getRepo then
      ([UEvent.printLogin, UEvent.mkClient, UEvent.callGetRepo, UEvent.exitUncaught], 1)
    else if fl UStep.getRelease then
      ([UEvent.printLogin, UEvent.mkClient, UEvent.callGetRepo, UEvent.callGetRelease,
        UEvent.exitCaught], 1)
    else
      ([UEvent.printLogin, UEvent.mkClient, UEvent.callGetRepo, UEvent.callGetRelease,
        UEvent.exitCaught], 1)

/-- Counterexample to C7 as stated: in the legacy `uploadTag.py`, a
failure during repository resolution (`get_repo` sits outside the `try`)
propagates uncaught instead of being caught and reported as a single
descriptive failure message. -/
theorem ut_catch_counterexample :
    (uploadTagLegacy (some (chars "tok")) (fun u => decide (u = UStep.getRepo))).1
        = [UEvent.printLogin, UEvent.mkClient, UEvent.callGetRepo, UEvent.exitUncaught] ∧
    UEvent.exitCaught ∉
      (uploadTagLegacy (some (chars "tok")) (fun u => decide (u = UStep.getRepo))).1 := by
  refine ⟨by decide, by decide⟩

/-- C7 (amended): in `scripts/uploadTag.py` every failure during
repository resolution, release resolution or asset upload is caught and
reported (the trace ends in the caught-failure exit, never the uncaught
one) with exit status 1; in the legacy `uploadTag.py` the same holds for
failures raised inside its `try` block, but a repository-resolution
failure propagates uncaught (the process still terminates with a
non-zero status via the interpreter). -/
theorem ut_catch_amended :
    (∀ (k : List Char) (fl : UStep → Bool),
      fl UStep.getRepo = true ∨ fl UStep.getRelease = true ∨ fl UStep.uploadAsset = true →
      UEvent.exitCaught ∈ (uploadTagScripts (some k) fl).1 ∧
      UEvent.exitUncaught ∉ (uploadTagScripts (some k) fl).1 ∧
      (uploadTagScripts (some k) fl).2 = 1) ∧
    (∀ (k : List Char) (fl : UStep → Bool),
      fl UStep.getRepo = false →
      UEvent.exitCaught ∈ (uploadTagLegacy (some k) fl).1 ∧
      (uploadTagLegacy (some k) fl).2 = 1) ∧
    (∀ (k : List Char) (fl : UStep → Bool),
      fl UStep.getRepo = true →
      UEvent.exitUncaught ∈ (uploadTagLegacy (some k) fl).1 ∧
      UEvent.exitCaught ∉ (uploadTagLegacy (some k) fl).1 ∧
      (uploadTagLegacy (some k) fl).2 = 1) := by
  refine ⟨?_, ?_, ?_⟩
  · intro k fl h
    cases h1 : fl UStep.getRepo <;> cases h2 : fl UStep.getRelease <;>
      cases h3 : fl UStep.uploadAsset <;>
      simp_all [uploadTagScripts]
  · intro k fl h1
    cases h2 : fl UStep.getRelease <;> simp_all [uploadTagLegacy]
  · intro k fl h1
    simp_all [uploadTagLegacy]

/-- Witness for the amended C7 at concrete tokens and failure
oracles. -/
theorem ut_catch_amended_witness :
    (UEvent.exitCaught ∈ (uploadTagScripts (some (chars "t")) (fun _ => true)).1 ∧
     UEvent.exitUncaught ∉ (uploadTagScripts (some (chars "t")) (fun _ => true)).1 ∧
     (uploadTagScripts (some (chars "t")) (fun _ => true)).2 = 1) ∧
    (UEvent.exitCaught ∈ (uploadTagLegacy (some (chars "t")) (fun _ => false)).1 ∧
     (uploadTagLegacy (some (chars "t")) (fun _ => false)).2 = 1) ∧
    (UEvent.exitUncaught ∈ (uploadTagLegacy (some (chars "t")) (fun _ => true)).1 ∧
     UEvent.exitCaught ∉ (uploadTagLegacy (some (chars "t")) (fun _ => true)).1 ∧
     (uploadTagLegacy (some (chars "t")) (fun _ => true)).2 = 1) :=
  ⟨ut_catch_amended.1 (chars "t") (fun _ => true) (Or.inl rfl),
   ut_catch_amended.2.1 (chars "t") (fun _ => false) rfl,
   ut_catch_amended.2.2 (chars "t") (fun _ => true) rfl⟩

/-- C8: in both uploaders, when the designated token environment
variable is unset the run prints the banner and exits with status 1
without constructing the API client or making any remote call; when it
is set, execution proceeds to constructing the authenticated client. -/
theorem ut_token_check :
    (∀ fl, uploadTagScripts none fl = ([UEvent.printLogin, UEvent.exitTokenMissing], 1) ∧
           UEvent.mkClient ∉ (uploadTagScripts none fl).1 ∧
           UEvent.callGetRepo ∉ (uploadTagScripts none fl).1 ∧
           UEvent.callGetRelease ∉ (uploadTagScripts none fl).1 ∧
           UEvent.callUpload ∉ (uploadTagScripts none fl).1) ∧
    (∀ fl, uploadTagLegacy none fl = ([UEvent.printLogin, UEvent.exitTokenMissing], 1) ∧
           UEvent.mkClient ∉ (uploadTagLegacy none fl).1 ∧
           UEvent.callGetRepo ∉ (uploadTagLegacy none fl).1 ∧
           UEvent.callGetRelease ∉ (uploadTagLegacy none fl).1 ∧
           UEvent.callUpload ∉ (uploadTagLegacy none fl).1) ∧
    (∀ (k : List Char) (fl : UStep → Bool),
      UEvent.mkClient ∈ (uploadTagScripts (some k) fl).1 ∧
      UEvent.mkClient ∈ (uploadTagLegacy (some k) fl).1) := by
  refine ⟨?_, ?_, ?_⟩
  · intro fl
    refine ⟨rfl, ?_, ?_, ?_, ?_⟩ <;> simp [uploadTagScripts]
  · intro fl
    refine ⟨rfl, ?_, ?_, ?_, ?_⟩ <;> simp [uploadTagLegacy]
  · intro k fl
    constructor
    · cases h1 : fl UStep.getRepo <;> cases h2 : fl UStep.getRelease <;>
        cases h3 : fl UStep.uploadAsset <;> simp_all [uploadTagScripts]
    · cases h1 : fl UStep.getRepo <;> cases h2 : fl UStep.getRelease <;>
        simp_all [uploadTagLegacy]
